import Mathlib

/-!
Verification development for the duplicate / near-duplicate text detection
engine of `check_text_similarity.py`.

Texts are modelled as `List Char` (Python `str` is a sequence of Unicode code
points).  Machine integers are modelled as `Nat` with explicit `% 2 ^ 32`
where the source masks.  Floating-point similarity scores and thresholds are
modelled as rationals: every claim below about them is purely order-theoretic,
and IEEE comparison on the finite floats embeds monotonically into `ℚ`.

The call `unicodedata.normalize("NFKC", value)` is a Unicode-table lookup
external to the program; `normalize_text` therefore takes the NFKC mapping as
an explicit function parameter `nfkc`.  Concrete instances below instantiate
it only on texts over code points where real NFKC acts as the identity (pure
ASCII and the NFKC-inert ideographic comma U+3001), so the instances agree
with CPython on those inputs.
-/

namespace TextSim

/-! ### Normalizer (source lines 17-25) -/

/-- The CPython whitespace code points: exactly the characters matched by the
regex class `\s` on `str` and stripped by `str.strip` (both use
`Py_UNICODE_ISSPACE`). -/
def pySpaceCodes : List Nat :=
  [0x9, 0xA, 0xB, 0xC, 0xD, 0x1C, 0x1D, 0x1E, 0x1F, 0x20, 0x85, 0xA0,
   0x1680, 0x2000, 0x2001, 0x2002, 0x2003, 0x2004, 0x2005, 0x2006, 0x2007,
   0x2008, 0x2009, 0x200A, 0x2028, 0x2029, 0x202F, 0x205F, 0x3000]

/-- Whether a character is Python whitespace. -/
def pyIsSpace (c : Char) : Bool :=
  pySpaceCodes.contains c.toNat

/-- `value.replace("\r\n", "\n")`: left-to-right, non-overlapping. -/
def replaceCRLF : List Char → List Char
  | [] => []
  | [c] => [c]
  | c :: d :: rest =>
    if c = '\r' ∧ d = '\n' then '\n' :: replaceCRLF rest
    else c :: replaceCRLF (d :: rest)

/-- `value.replace("\r", "\n")`. -/
def replaceCR (l : List Char) : List Char :=
  l.map fun c => if c = '\r' then '\n' else c

/-- `re.sub(r"\s+", " ", value)`: every maximal run of whitespace becomes a
single ASCII space. -/
def collapseWS : List Char → List Char
  | [] => []
  | c :: rest =>
    if pyIsSpace c then
      match rest with
      | [] => [' ']
      | d :: _ => if pyIsSpace d then collapseWS rest else ' ' :: collapseWS rest
    else c :: collapseWS rest

/-- `str.lstrip()`. -/
def pyLStrip (l : List Char) : List Char :=
  l.dropWhile pyIsSpace

/-- `str.rstrip()`. -/
def pyRStrip (l : List Char) : List Char :=
  (l.reverse.dropWhile pyIsSpace).reverse

/-- `str.strip()`. -/
def pyStrip (l : List Char) : List Char :=
  pyRStrip (pyLStrip l)

/-- Code points of the punctuation class
`[、。・,.;:!?「」『』（）()［］\[\]{}<>]` removed when `strip_punct` is set. -/
def punctCodes : List Nat :=
  [0x3001, 0x3002, 0x30FB, 0x2C, 0x2E, 0x3B, 0x3A, 0x21, 0x3F,
   0x300C, 0x300D, 0x300E, 0x300F, 0xFF08, 0xFF09, 0x28, 0x29,
   0xFF3B, 0xFF3D, 0x5B, 0x5D, 0x7B, 0x7D, 0x3C, 0x3E]

/-- Whether a character is in the stripped punctuation set. -/
def isPunct (c : Char) : Bool :=
  punctCodes.contains c.toNat

/-- The post-NFKC part of `normalize_text`: line-ending unification,
whitespace collapse and trim (source lines 21-22). -/
def postNFKC (v : List Char) : List Char :=
  pyStrip (collapseWS (replaceCR (replaceCRLF v)))

/-- `normalize_text(text, strip_punct)` (source lines 17-25), with the NFKC
table passed as the function `nfkc`. `None` input yields the empty text. -/
def normalize_text (nfkc : List Char → List Char) (text : Option (List Char))
    (strip_punct : Bool) : List Char :=
  match text with
  | none => []
  | some t =>
    let v := postNFKC (nfkc t)
    if strip_punct then v.filter (fun c => !(isPunct c)) else v

/-- The whitespace shape every `normalize_text` result has: any whitespace
character is a single ASCII space, no two whitespace characters are adjacent,
and neither end is whitespace. -/
def wsClean (l : List Char) : Prop :=
  (∀ c ∈ l, pyIsSpace c = true → c = ' ') ∧
  List.Chain' (fun a b => pyIsSpace a = false ∨ pyIsSpace b = false) l ∧
  (∀ c, l.head? = some c → pyIsSpace c = false) ∧
  (∀ c, l.getLast? = some c → pyIsSpace c = false)

/-! ### Sketcher: adler32 hashing and minhash signatures -/

/-- UTF-8 encoding of a single code point (`str.encode("utf-8")`). -/
def utf8Bytes (n : Nat) : List Nat :=
  if n < 0x80 then [n]
  else if n < 0x800 then [0xC0 + n / 64, 0x80 + n % 64]
  else if n < 0x10000 then [0xE0 + n / 4096, 0x80 + n / 64 % 64, 0x80 + n % 64]
  else [0xF0 + n / 262144, 0x80 + n / 4096 % 64, 0x80 + n / 64 % 64, 0x80 + n % 64]

/-- `zlib.adler32`: running sums `a` (starting at 1) and `b` (starting at 0)
modulo 65521; the result is `b * 2^16 + a`. -/
def adler32 (bytes : List Nat) : Nat :=
  let s := bytes.foldl
    (fun st y =>
      let a2 := (st.1 + y) % 65521
      (a2, (st.2 + a2) % 65521))
    (1, 0)
  s.2 * 65536 + s.1

/-- `adler32_hash(value)` (source lines 28-29): adler32 of the UTF-8 bytes,
masked to 32 bits. -/
def adler32_hash (value : List Char) : Nat :=
  adler32 (value.flatMap fun c => utf8Bytes c.toNat) % 4294967296

/-- The list `[text[i:i+n] for i in range(len(text) - n + 1)]` of n-grams. -/
def ngramList (text : List Char) (n : Nat) : List (List Char) :=
  (List.range (text.length - n + 1)).map fun i => (text.drop i).take n

/-- The local `hashes` value of `minhash_signature`: the ascending-sorted
adler32 hashes of the distinct n-grams of `text` (hash multiplicities of
colliding distinct grams preserved).  The Python set comprehension over
n-grams is modelled by `List.dedup` (the sorted hash list depends only on the
set of distinct grams), `sorted` by `List.insertionSort`. -/
def sortedGramHashes (text : List Char) (n : Nat) : List Nat :=
  List.insertionSort (· ≤ ·) (((ngramList text n).dedup).map adler32_hash)

/-- `minhash_signature(text, ngram_size, signature_size)` (source lines
32-45); the local `grams` / `hashes` values are factored into
`sortedGramHashes`. -/
def minhash_signature (text : List Char) (ngram_size signature_size : Nat) :
    List Nat :=
  if text = [] then List.replicate signature_size 0
  else if text.length < ngram_size then
    List.replicate signature_size (adler32_hash text)
  else if sortedGramHashes text ngram_size = [] then
    List.replicate signature_size 0
  else if (sortedGramHashes text ngram_size).length < signature_size then
    ((List.replicate
        ((signature_size + (sortedGramHashes text ngram_size).length - 1) /
          (sortedGramHashes text ngram_size).length)
        (sortedGramHashes text ngram_size)).flatten).take signature_size
  else (sortedGramHashes text ngram_size).take signature_size

/-- Spec-side sketch, following the amended wording of the signature claim:
the first `k` entries of the ascending-sorted list of hashes of the distinct
n-grams (one entry per distinct gram); if that list has fewer than `k`
entries it is cyclically repeated to fill exactly `k` slots. -/
def bottomKSketch (text : List Char) (n k : Nat) : List Nat :=
  if k ≤ (sortedGramHashes text n).length then (sortedGramHashes text n).take k
  else List.ofFn fun i : Fin k =>
    (sortedGramHashes text n).getD (i.1 % (sortedGramHashes text n).length) 0

/-- The original claim's prescription: the `k` smallest DISTINCT hash values
among the hashes of the distinct n-grams, ascending. -/
def distinctBottomK (text : List Char) (n k : Nat) : List Nat :=
  ((sortedGramHashes text n).dedup).take k

/-! ### Insertion-ordered dictionaries

Python `dict.setdefault(key, []).append(idx)` on an insertion-ordered dict is
modelled by an association list: a new key is appended at the end, an existing
key has `idx` appended to its value list. -/

/-- `m.setdefault(key, []).append(idx)` for an insertion-ordered dict. -/
def dictAppend {α : Type} [DecidableEq α] (m : List (α × List Nat)) (key : α)
    (idx : Nat) : List (α × List Nat) :=
  match m with
  | [] => [(key, [idx])]
  | e :: rest =>
    if e.1 = key then (e.1, e.2 ++ [idx]) :: rest
    else e :: dictAppend rest key idx

/-! ### ExactGrouper (source lines 195-233) -/

/-- The `exact_map` construction loop (source lines 195-199): record indices
grouped by identical non-empty normalized text, in insertion order. -/
def buildExactMapAux : List (List Char) → Nat → List (List Char × List Nat) →
    List (List Char × List Nat)
  | [], _, m => m
  | t :: rest, i, m =>
    buildExactMapAux rest (i + 1) (if t = [] then m else dictAppend m t i)

/-- `exact_map` built from all normalized texts. -/
def buildExactMap (norms : List (List Char)) : List (List Char × List Nat) :=
  buildExactMapAux norms 0 []

/-- The emitted exact-duplicate groups (source lines 216-233): entries of size
at least 2, paired with sequential group ids starting at 1. -/
def exactGroups (norms : List (List Char)) :
    List (Nat × (List Char × List Nat)) :=
  let gs := (buildExactMap norms).filter fun e => 2 ≤ e.2.length
  (List.range' 1 gs.length 1).zip gs

/-- The invariant of the `exact_map` loop after processing the first `pos`
records: every entry is a non-empty key with a non-empty strictly increasing
member list of indices below `pos`, all normalizing to the key; every
processed index with non-empty normalized text is registered; keys are
pairwise distinct; entries are ordered by their first member index. -/
def MapInv (norms : List (List Char)) (pos : Nat)
    (m : List (List Char × List Nat)) : Prop :=
  (∀ e ∈ m, e.1 ≠ [] ∧ e.2 ≠ [] ∧ e.2.Pairwise (· < ·) ∧
    ∀ i ∈ e.2, i < pos ∧ norms.getD i [] = e.1) ∧
  (∀ i, i < pos → norms.getD i [] ≠ [] → ∃ e ∈ m, i ∈ e.2) ∧
  m.Pairwise (fun e1 e2 => e1.1 ≠ e2.1) ∧
  m.Pairwise (fun e1 e2 => e1.2.headD 0 < e2.2.headD 0)

/-! ### BandIndex: `build_buckets` (source lines 78-88) -/

/-- The offsets `range(0, sigLen, band_size)` for `band_size ≥ 1`. -/
def bandOffsets (sigLen band_size : Nat) : List Nat :=
  List.range' 0 ((sigLen + band_size - 1) / band_size) band_size

/-- The inner loop of `build_buckets` for one signature: append `idx` to the
bucket of every complete band; a trailing band shorter than `band_size` is
skipped. -/
def addBands (band_size : Nat) (bucket : Nat) (sig : List Nat) (idx : Nat)
    (m : List ((Nat × Nat × List Nat) × List Nat)) :
    List ((Nat × Nat × List Nat) × List Nat) :=
  (bandOffsets sig.length band_size).foldl
    (fun acc o =>
      let band := (sig.drop o).take band_size
      if band.length < band_size then acc
      else dictAppend acc (bucket, o, band) idx)
    m

/-- The `enumerate(signatures)` loop of `build_buckets`.  Per iteration,
Python first evaluates `lengths[idx] // length_bucket if length_bucket else
0` — an `IndexError` (modelled `none`) when `length_bucket` is non-zero and
`idx` is out of range of `lengths` — and then constructs
`range(0, len(sig), band_size)`, whose zero step raises `ValueError`
(modelled `none`) even when the signature is empty.  The in-range access
`lengths[idx]` is `lengths.getD idx 0`. -/
def bucketsAux (band_size length_bucket : Nat) (lengths : List Nat) :
    List (List Nat) → Nat → List ((Nat × Nat × List Nat) × List Nat) →
    Option (List ((Nat × Nat × List Nat) × List Nat))
  | [], _, m => some m
  | sig :: rest, idx, m =>
    if length_bucket ≠ 0 ∧ lengths.length ≤ idx then none
    else if band_size = 0 then none
    else bucketsAux band_size length_bucket lengths rest (idx + 1)
      (addBands band_size
        (if length_bucket = 0 then 0 else lengths.getD idx 0 / length_bucket)
        sig idx m)

/-- `build_buckets(signatures, lengths, band_size, length_bucket)` (source
lines 78-88): the loop over all signatures starting from the empty dict; an
exception escaping the loop is `none`.  An empty signature list returns the
empty dict whatever the configuration, since the loop body never runs. -/
def build_buckets (signatures : List (List Nat)) (lengths : List Nat)
    (band_size length_bucket : Nat) :
    Option (List ((Nat × Nat × List Nat) × List Nat)) :=
  bucketsAux band_size length_bucket lengths signatures 0 []

/-! ### PairScorer: the similar-pairs loop of `main` (source lines 243-309) -/

/-- CLI configuration relevant to the engine (`parse_args`, source lines
91-165), after argparse type conversion. -/
structure Args where
  similarity_threshold : ℚ
  min_length : Nat
  length_delta : ℚ
  ngram : Nat
  sig_size : Nat
  band_size : Nat
  length_bucket : Nat
  max_block_size : Nat
  strip_punct : Bool
  include_identical : Bool
deriving DecidableEq

/-- Modelled from source `parse_args` (lines 91-165) and `main` (lines
168-175): argparse performs only type conversion and `main` exits only for a
missing CSV column; no range check on `similarity_threshold`, on `band_size`
versus `sig_size`, or on `ngram` exists anywhere, so every well-typed
configuration is accepted. -/
def config_rejected (_args : Args) : Bool := false

/-- The canonical pair id `(min << 32) | max` (source lines 276-279). -/
def pairId (a b : Nat) : Nat :=
  if a < b then (a <<< 32) ||| b else (b <<< 32) ||| a

/-- Two index pairs denote the same unordered pair of records. -/
def samePair (p q : Nat × Nat) : Prop :=
  (p.1 = q.1 ∧ p.2 = q.2) ∨ (p.1 = q.2 ∧ p.2 = q.1)

/-- Scorer state: the `seen_pairs` set and the emitted rows (as index pairs,
in emission order). -/
structure ScoreState where
  seen : List Nat
  out : List (Nat × Nat)
deriving DecidableEq

/-- The body of the inner `j` loop (source lines 272-309): all candidate
filters, then scoring against the threshold.  `sim` is the
`similarity_ratio` oracle (rapidfuzz or difflib, whichever the environment
provides), valued in `ℚ`. -/
def pairStep (args : Args) (normalized : List (List Char)) (lengths : List Nat)
    (sim : List Char → List Char → ℚ) (idx_a idx_b : Nat) (st : ScoreState) :
    ScoreState :=
  if lengths.getD idx_b 0 < args.min_length then st
  else
    let pid := pairId idx_a idx_b
    if pid ∈ st.seen then st
    else
      let st1 : ScoreState := ⟨pid :: st.seen, st.out⟩
      if !args.include_identical ∧ normalized.getD idx_a [] = normalized.getD idx_b []
      then st1
      else
        let len_a := lengths.getD idx_a 0
        let len_b := lengths.getD idx_b 0
        let len_max := max len_a len_b
        -- `if len_max:` then `if args.length_delta and delta > args.length_delta: continue`
        if len_max ≠ 0 ∧ args.length_delta ≠ 0 ∧
            |(len_a : ℚ) - (len_b : ℚ)| / (len_max : ℚ) > args.length_delta
        then st1
        else
          let score := sim (normalized.getD idx_a []) (normalized.getD idx_b [])
          if score < args.similarity_threshold then st1
          else ⟨st1.seen, st1.out ++ [(idx_a, idx_b)]⟩

/-- The inner `for j in range(i+1, len(idxs))` loop. -/
def innerLoop (args : Args) (normalized : List (List Char)) (lengths : List Nat)
    (sim : List Char → List Char → ℚ) (idx_a : Nat) :
    List Nat → ScoreState → ScoreState
  | [], st => st
  | b :: rest, st =>
    innerLoop args normalized lengths sim idx_a rest
      (pairStep args normalized lengths sim idx_a b st)

/-- The outer `for i in range(len(idxs))` loop with its `min_length` guard on
`idx_a`. -/
def bucketLoop (args : Args) (normalized : List (List Char)) (lengths : List Nat)
    (sim : List Char → List Char → ℚ) :
    List Nat → ScoreState → ScoreState
  | [], st => st
  | a :: rest, st =>
    bucketLoop args normalized lengths sim rest
      (if lengths.getD a 0 < args.min_length then st
       else innerLoop args normalized lengths sim a rest st)

/-- The `for idxs in buckets.values()` loop with its bucket-size guards
(source lines 263-267). -/
def scoreBuckets (args : Args) (normalized : List (List Char))
    (lengths : List Nat) (sim : List Char → List Char → ℚ) :
    List (List Nat) → ScoreState → ScoreState
  | [], st => st
  | idxs :: more, st =>
    scoreBuckets args normalized lengths sim more
      (if idxs.length < 2 then st
       else if args.max_block_size ≠ 0 ∧ idxs.length > args.max_block_size then st
       else bucketLoop args normalized lengths sim idxs st)

/-! ### The engine pipeline of `main` (source lines 168-309, minus I/O) -/

/-- The whole in-memory pipeline of `main`: normalization, exact grouping,
signatures, bucketing, pair scoring.  Returns `none` when `build_buckets`
raises (band size 0); otherwise the exact-duplicate groups and the emitted
similar pairs. -/
def runEngine (nfkc : List Char → List Char) (args : Args)
    (texts : List (Option (List Char))) (sim : List Char → List Char → ℚ) :
    Option (List (Nat × (List Char × List Nat)) × List (Nat × Nat)) :=
  let normalized := texts.map fun t => normalize_text nfkc t args.strip_punct
  let lengths := normalized.map List.length
  let groups := exactGroups normalized
  let signatures := normalized.map fun nrm =>
    minhash_signature nrm args.ngram args.sig_size
  match build_buckets signatures lengths args.band_size args.length_bucket with
  | none => none
  | some m =>
    some (groups,
      (scoreBuckets args normalized lengths sim (m.map Prod.snd) ⟨[], []⟩).out)

/-- The similar-pairs report of an engine run (empty when the run raised). -/
def similarOut (r : Option (List (Nat × (List Char × List Nat)) × List (Nat × Nat))) :
    List (Nat × Nat) :=
  match r with
  | none => []
  | some x => x.2

/-- The normalized-text lengths of an engine run, as `main` computes them
(source line 189). -/
def normLengths (nfkc : List Char → List Char) (args : Args)
    (texts : List (Option (List Char))) : List Nat :=
  (texts.map fun t => normalize_text nfkc t args.strip_punct).map List.length

/-! ### Concrete test fixtures -/

/-- A 24-character test text. -/
def tAlpha : List Char := "abcdefghijklmnopqrstuvwx".toList

/-- A configuration with `band_size = 13 > sig_size = 12` (invalid per the
spec configuration contract) and otherwise-default shape; threshold and
length-delta are the integer rationals 1 and 0 so that all comparisons are
kernel-computable. -/
def badArgs : Args :=
  ⟨1, 20, 0, 3, 12, 13, 50, 2000, false, true⟩

/-- The same configuration with the valid default `band_size = 4`. -/
def goodArgs : Args :=
  ⟨1, 20, 0, 3, 12, 4, 50, 2000, false, true⟩

/-- `goodArgs` with the length-delta filter enabled at the integer rational
1. -/
def ldArgs : Args :=
  ⟨1, 20, 1, 3, 12, 4, 50, 2000, false, true⟩

/-! ### Sanity checks against CPython ground truth -/

example : normalize_text id (some "a 、 b".toList) true = "a  b".toList := by decide
example :
    normalize_text id (some (normalize_text id (some "a 、 b".toList) true)) true
      = "a b".toList := by decide
example : normalize_text id (some "  x\r\n\r y ".toList) false = "x y".toList := by
  decide
example : adler32_hash "aaa".toList = 38338852 := by decide
example : minhash_signature "acebaf".toList 3 3
    = [38863146, 38863146, 39256361] := by decide
example : minhash_signature "aaaa".toList 3 5
    = [38338852, 38338852, 38338852, 38338852, 38338852] := by decide
example : minhash_signature "ab".toList 3 4
    = [19267780, 19267780, 19267780, 19267780] := by decide
example : minhash_signature [] 3 4 = [0, 0, 0, 0] := by decide
example : exactGroups [['a'], ['b'], ['a'], [], [], ['b'], ['c']]
    = [(1, (['a'], [0, 2])), (2, (['b'], [1, 5]))] := by decide
example : build_buckets [[5, 6, 7], [5, 6, 8]] [10, 60] 2 50
    = some [((0, 0, [5, 6]), [0]), ((1, 0, [5, 6]), [1])] := by decide
example : build_buckets [[5, 6, 7]] [10] 0 50 = none := by decide
example : build_buckets [[5, 6, 7], [5, 6, 7]] [10, 10] 2 0
    = some [((0, 0, [5, 6]), [0, 1])] := by decide
-- `build_buckets([], [10], 0, 50)` returns `{}` in Python: the zero-step
-- range is never constructed when the signature loop body never runs.
example : build_buckets ([] : List (List Nat)) [10] 0 50 = some [] := by decide
-- `build_buckets([[1, 2]], [], 1, 50)` raises IndexError on `lengths[0]`.
example : build_buckets [[1, 2]] [] 1 50 = none := by decide
-- With `length_bucket = 0` the length list is never indexed.
example : build_buckets [[1, 2]] [] 1 0
    = some [((0, 0, [1]), [0]), ((0, 1, [2]), [0])] := by decide
-- `range(0, 0, 0)` raises even for an empty signature.
example : build_buckets [([] : List Nat)] [10] 0 50 = none := by decide
example :
    similarOut (runEngine id goodArgs [some tAlpha, some tAlpha] fun _ _ => 1)
      = [(0, 1)] := by decide
example :
    runEngine id badArgs [some tAlpha, some tAlpha] (fun _ _ => 1)
      = some ([(1, (tAlpha, [0, 1]))], []) := by decide

/-! ### Lemmas: signature length and the bottom-k refinement -/

lemma flatten_replicate_length {α : Type} (r : Nat) (l : List α) :
    ((List.replicate r l).flatten).length = r * l.length := by
  induction r with
  | zero => simp
  | succ m ih => simp [List.replicate_succ, ih, Nat.succ_mul, Nat.add_comm]

lemma ceil_div_mul_ge (k len : Nat) (h : 1 ≤ len) :
    k ≤ ((k + len - 1) / len) * len := by
  have hd := Nat.div_add_mod (k + len - 1) len
  have hm : (k + len - 1) % len < len := Nat.mod_lt _ (by omega)
  rw [Nat.mul_comm]
  generalize hq : len * ((k + len - 1) / len) = P at *
  omega

/-- Every branch of `minhash_signature` produces a list of length exactly
`signature_size`. -/
lemma minhash_sig_length (t : List Char) (n k : Nat) :
    (minhash_signature t n k).length = k := by
  unfold minhash_signature
  split_ifs with h1 h2 h3 h4
  · simp
  · simp
  · simp
  · have hlen : 1 ≤ (sortedGramHashes t n).length :=
      List.length_pos.mpr h3
    rw [List.length_take, flatten_replicate_length]
    exact Nat.min_eq_left (ceil_div_mul_ge k _ hlen)
  · rw [List.length_take]
    exact Nat.min_eq_left (by omega)

lemma getD_flatten_replicate (hs : List Nat) :
    ∀ (r i : Nat), i < r * hs.length →
      ((List.replicate r hs).flatten).getD i 0 = hs.getD (i % hs.length) 0 := by
  intro r
  induction r with
  | zero => intro i hi; omega
  | succ m ih =>
    intro i hi
    rw [List.replicate_succ, List.flatten_cons]
    by_cases hlt : i < hs.length
    · rw [List.getD_append _ _ _ _ hlt, Nat.mod_eq_of_lt hlt]
    · have hle : hs.length ≤ i := by omega
      rw [List.getD_append_right _ _ _ _ hle, Nat.mod_eq_sub_mod hle]
      rw [Nat.add_mul, Nat.one_mul] at hi
      exact ih (i - hs.length) (by omega)

lemma take_flatten_replicate (hs : List Nat) (k : Nat) (hne : hs ≠ []) :
    ((List.replicate ((k + hs.length - 1) / hs.length) hs).flatten).take k
      = List.ofFn fun i : Fin k => hs.getD (i.1 % hs.length) 0 := by
  have hlen : 1 ≤ hs.length := List.length_pos.mpr hne
  have hkr : k ≤ ((k + hs.length - 1) / hs.length) * hs.length :=
    ceil_div_mul_ge k _ hlen
  apply List.ext_getElem
  · rw [List.length_take, flatten_replicate_length, List.length_ofFn]
    exact Nat.min_eq_left hkr
  · intro i h1 h2
    rw [List.getElem_take, List.getElem_ofFn]
    have hbig : i < ((k + hs.length - 1) / hs.length) * hs.length := by
      rw [List.length_take, flatten_replicate_length] at h1
      omega
    have hfl : i < ((List.replicate ((k + hs.length - 1) / hs.length) hs).flatten).length := by
      rw [flatten_replicate_length]; exact hbig
    rw [← List.getD_eq_getElem _ 0 hfl, getD_flatten_replicate hs _ i hbig]

/-- Claim C2 (amended): for non-empty text of length at least `n`, the
signature consists of the first `k` entries of the ascending-sorted hashes of
the distinct n-grams, with multiplicity preserved when distinct grams share a
hash value; when that sorted list is shorter than `k` it is cyclically
repeated to fill exactly `k` slots. -/
theorem claim_C2 (t : List Char) (n k : Nat) (h1 : t ≠ []) (h2 : n ≤ t.length) :
    minhash_signature t n k = bottomKSketch t n k := by
  have h2' : ¬ t.length < n := by omega
  unfold minhash_signature bottomKSketch
  rw [if_neg h1, if_neg h2']
  by_cases h3 : sortedGramHashes t n = []
  · rw [if_pos h3, h3]
    by_cases hk0 : k = 0
    · subst hk0; simp
    · rw [if_neg (show ¬ k ≤ ([] : List Nat).length by simp; omega)]
      simp [List.ofFn_const, List.replicate]
  · rw [if_neg h3]
    by_cases h4 : (sortedGramHashes t n).length < k
    · rw [if_pos h4,
        if_neg (show ¬ k ≤ (sortedGramHashes t n).length by omega)]
      exact take_flatten_replicate _ k h3
    · rw [if_neg h4, if_pos (show k ≤ (sortedGramHashes t n).length by omega)]

/-- Witness for claim C2: the cyclic-fill case on the text `"aaaa"` with a
single distinct 3-gram and signature size 5. -/
theorem claim_C2_witness :
    "aaaa".toList ≠ [] ∧ 3 ≤ "aaaa".toList.length ∧
    minhash_signature "aaaa".toList 3 5 = bottomKSketch "aaaa".toList 3 5 :=
  ⟨by decide, by decide, claim_C2 "aaaa".toList 3 5 (by decide) (by decide)⟩

/-- Counterexample to claim C2 as stated: the text `"acebaf"` has four
distinct 3-grams but the grams `"ace"` and `"baf"` share one adler32 hash, so
it has exactly three distinct hash values (at least `k = 3`, satisfying the
claim's precondition), yet the signature repeats the collided value and is
not the list of the 3 smallest distinct hash values. -/
theorem claim_C2_counterexample :
    3 ≤ ((sortedGramHashes "acebaf".toList 3).dedup).length ∧
    minhash_signature "acebaf".toList 3 3 ≠ distinctBottomK "acebaf".toList 3 3 := by
  constructor
  · decide
  · decide

/-- Claim C3: the signature always has length exactly `signature_size`; the
empty text yields all zeros, and a non-empty text shorter than the n-gram
size yields `signature_size` copies of its own hash. -/
theorem claim_C3 (t : List Char) (n k : Nat) (hn : 1 ≤ n) (hk : 1 ≤ k) :
    (minhash_signature t n k).length = k ∧
    minhash_signature [] n k = List.replicate k 0 ∧
    (t ≠ [] → t.length < n →
      minhash_signature t n k = List.replicate k (adler32_hash t)) := by
  refine ⟨minhash_sig_length t n k, by simp [minhash_signature], ?_⟩
  intro h1 h2
  unfold minhash_signature
  rw [if_neg h1, if_pos h2]

/-! ### Lemmas: normalization shape and idempotence -/

lemma collapseWS_cons_nonspace (d : Char) (tail : List Char)
    (hd : pyIsSpace d = false) :
    collapseWS (d :: tail) = d :: collapseWS tail := by
  simp [collapseWS, hd]

lemma collapseWS_cons_space_space (a d : Char) (tail : List Char)
    (ha : pyIsSpace a = true) (hd : pyIsSpace d = true) :
    collapseWS (a :: d :: tail) = collapseWS (d :: tail) := by
  simp [collapseWS, ha, hd]

lemma collapseWS_cons_space_nonspace (a d : Char) (tail : List Char)
    (ha : pyIsSpace a = true) (hd : pyIsSpace d = false) :
    collapseWS (a :: d :: tail) = ' ' :: collapseWS (d :: tail) := by
  simp [collapseWS, ha, hd]

/-- Every whitespace character surviving whitespace collapse is an ASCII
space. -/
lemma mem_collapseWS_space (l : List Char) :
    ∀ c ∈ collapseWS l, pyIsSpace c = true → c = ' ' := by
  induction l with
  | nil => simp [collapseWS]
  | cons a rest ih =>
    by_cases ha : pyIsSpace a = true
    · cases rest with
      | nil =>
        intro c hc _
        simp [collapseWS, ha] at hc
        exact hc
      | cons d tail =>
        by_cases hd : pyIsSpace d = true
        · intro c hc hs
          rw [collapseWS_cons_space_space a d tail ha hd] at hc
          exact ih c hc hs
        · intro c hc hs
          rw [collapseWS_cons_space_nonspace a d tail ha
            (Bool.not_eq_true _ ▸ hd)] at hc
          rcases List.mem_cons.mp hc with h | h
          · exact h
          · exact ih c h hs
    · intro c hc hs
      rw [collapseWS_cons_nonspace a rest (Bool.not_eq_true _ ▸ ha)] at hc
      rcases List.mem_cons.mp hc with h | h
      · subst h; exact absurd hs (by simpa using ha)
      · exact ih c h hs

/-- Whitespace collapse never leaves two adjacent whitespace characters. -/
lemma chain_collapseWS (l : List Char) :
    List.Chain' (fun a b => pyIsSpace a = false ∨ pyIsSpace b = false)
      (collapseWS l) := by
  induction l with
  | nil => simp [collapseWS]
  | cons a rest ih =>
    by_cases ha : pyIsSpace a = true
    · cases rest with
      | nil => simp [collapseWS, ha]
      | cons d tail =>
        by_cases hd : pyIsSpace d = true
        · rw [collapseWS_cons_space_space a d tail ha hd]; exact ih
        · have hd' : pyIsSpace d = false := Bool.not_eq_true _ ▸ hd
          rw [collapseWS_cons_space_nonspace a d tail ha hd']
          rw [List.chain'_cons']
          refine ⟨?_, ih⟩
          intro y hy
          rw [collapseWS_cons_nonspace d tail hd'] at hy
          simp at hy
          subst hy
          exact Or.inr hd'
    · have ha' : pyIsSpace a = false := Bool.not_eq_true _ ▸ ha
      rw [collapseWS_cons_nonspace a rest ha']
      rw [List.chain'_cons']
      exact ⟨fun y _ => Or.inl ha', ih⟩

lemma head_dropWhile (p : Char → Bool) (l : List Char) :
    ∀ c, (l.dropWhile p).head? = some c → p c = false := by
  induction l with
  | nil => intro c h; simp [List.dropWhile] at h
  | cons a rest ih =>
    intro c h
    rw [List.dropWhile_cons] at h
    by_cases hp : p a = true
    · rw [if_pos hp] at h; exact ih c h
    · rw [if_neg hp] at h
      simp at h
      rw [← h]
      exact Bool.not_eq_true _ ▸ hp

lemma pyStrip_sublist (l : List Char) : (pyStrip l).Sublist l := by
  unfold pyStrip pyRStrip pyLStrip
  refine List.Sublist.trans ?_ (List.dropWhile_sublist pyIsSpace)
  have h := (List.dropWhile_sublist (l := (l.dropWhile pyIsSpace).reverse) pyIsSpace).reverse
  rwa [List.reverse_reverse] at h

lemma pyStrip_chain {R : Char → Char → Prop} (l : List Char)
    (h : List.Chain' R l) : List.Chain' R (pyStrip l) := by
  unfold pyStrip pyRStrip pyLStrip
  have h1 : List.Chain' R (l.dropWhile pyIsSpace) := by
    obtain ⟨pre, hpre⟩ := List.dropWhile_suffix (l := l) pyIsSpace
    rw [← hpre] at h
    exact (List.chain'_append.mp h).2.1
  obtain ⟨pre, hpre⟩ :=
    List.dropWhile_suffix (l := (l.dropWhile pyIsSpace).reverse) pyIsSpace
  have h2 : ((l.dropWhile pyIsSpace).reverse.dropWhile pyIsSpace).reverse ++ pre.reverse
      = l.dropWhile pyIsSpace := by
    have := congrArg List.reverse hpre
    simpa using this
  rw [← h2] at h1
  exact (List.chain'_append.mp h1).1

/-- `str.rstrip()` returns a prefix of its input. -/
lemma pyRStrip_prefix (l : List Char) : pyRStrip l <+: l := by
  obtain ⟨pre, hpre⟩ := List.dropWhile_suffix (l := l.reverse) pyIsSpace
  refine ⟨pre.reverse, ?_⟩
  have := congrArg List.reverse hpre
  simpa [pyRStrip] using this

lemma head_pyStrip (l : List Char) :
    ∀ c, (pyStrip l).head? = some c → pyIsSpace c = false := by
  intro c h
  unfold pyStrip at h
  obtain ⟨t, ht⟩ := pyRStrip_prefix (pyLStrip l)
  have hz : (pyLStrip l).head? = some c := by
    rw [← ht, List.head?_append, h]
    rfl
  unfold pyLStrip at hz
  exact head_dropWhile pyIsSpace l c hz

lemma last_pyStrip (l : List Char) :
    ∀ c, (pyStrip l).getLast? = some c → pyIsSpace c = false := by
  intro c h
  unfold pyStrip pyRStrip at h
  rw [List.getLast?_reverse] at h
  exact head_dropWhile pyIsSpace _ c h

/-- The post-NFKC normalization stage always produces a whitespace-clean
result. -/
lemma wsClean_postNFKC (v : List Char) : wsClean (postNFKC v) := by
  unfold postNFKC wsClean
  refine ⟨?_, ?_, ?_, ?_⟩
  · intro c hc hs
    exact mem_collapseWS_space _ c ((pyStrip_sublist _).subset hc) hs
  · exact pyStrip_chain _ (chain_collapseWS _)
  · exact head_pyStrip _
  · exact last_pyStrip _

lemma replaceCRLF_eq_self (l : List Char) (h : '\r' ∉ l) :
    replaceCRLF l = l := by
  induction l with
  | nil => rfl
  | cons a rest ih =>
    cases rest with
    | nil => rfl
    | cons d tail =>
      have ha : a ≠ '\r' := fun e => h (e ▸ List.mem_cons_self a _)
      have ht : '\r' ∉ d :: tail := fun hm => h (List.mem_cons_of_mem _ hm)
      have hcond : ¬(a = '\r' ∧ d = '\n') := fun hc => ha hc.1
      show replaceCRLF (a :: d :: tail) = a :: d :: tail
      unfold replaceCRLF
      rw [if_neg hcond, ih ht]

lemma replaceCR_eq_self (l : List Char) (h : '\r' ∉ l) : replaceCR l = l := by
  induction l with
  | nil => rfl
  | cons a rest ih =>
    have ha : a ≠ '\r' := fun e => h (e ▸ List.mem_cons_self a _)
    have ht : '\r' ∉ rest := fun hm => h (List.mem_cons_of_mem _ hm)
    unfold replaceCR at ih ⊢
    rw [List.map_cons, if_neg ha, ih ht]

lemma collapseWS_eq_self (l : List Char)
    (hm : ∀ c ∈ l, pyIsSpace c = true → c = ' ')
    (hc : List.Chain' (fun a b => pyIsSpace a = false ∨ pyIsSpace b = false) l) :
    collapseWS l = l := by
  induction l with
  | nil => rfl
  | cons a rest ih =>
    by_cases ha : pyIsSpace a = true
    · have ha' : a = ' ' := hm a (List.mem_cons_self _ _) ha
      cases rest with
      | nil => simp [collapseWS, ha, ha']
      | cons d tail =>
        have hd : pyIsSpace d = false := by
          rcases (List.chain'_cons'.mp hc).1 d (by simp) with h | h
          · exact absurd ha (by simp [h])
          · exact h
        rw [collapseWS_cons_space_nonspace a d tail ha hd]
        rw [ih (fun c hcm => hm c (List.mem_cons_of_mem _ hcm))
          (List.chain'_cons'.mp hc).2]
        rw [ha']
    · have ha' : pyIsSpace a = false := Bool.not_eq_true _ ▸ ha
      rw [collapseWS_cons_nonspace a rest ha']
      rw [ih (fun c hcm => hm c (List.mem_cons_of_mem _ hcm))
        (List.chain'_cons'.mp hc).2]

lemma pyLStrip_eq_self (l : List Char)
    (hh : ∀ c, l.head? = some c → pyIsSpace c = false) : pyLStrip l = l := by
  cases l with
  | nil => rfl
  | cons a t =>
    unfold pyLStrip
    rw [List.dropWhile_cons, if_neg]
    simp [hh a (by simp)]

lemma pyRStrip_eq_self (l : List Char)
    (hl : ∀ c, l.getLast? = some c → pyIsSpace c = false) : pyRStrip l = l := by
  unfold pyRStrip
  have hdw : l.reverse.dropWhile pyIsSpace = l.reverse := by
    cases hrev : l.reverse with
    | nil => rfl
    | cons a t =>
      rw [List.dropWhile_cons, if_neg]
      have : l.getLast? = some a := by
        rw [← List.head?_reverse, hrev]; rfl
      simp [hl a this]
  rw [hdw, List.reverse_reverse]

/-- A whitespace-clean text is a fixed point of the post-NFKC stage. -/
lemma postNFKC_fix (l : List Char) (h : wsClean l) : postNFKC l = l := by
  obtain ⟨h1, h2, h3, h4⟩ := h
  have hcr : '\r' ∉ l := by
    intro hm
    have := h1 '\r' hm (by decide)
    exact absurd this (by decide)
  unfold postNFKC pyStrip
  rw [replaceCRLF_eq_self l hcr, replaceCR_eq_self l hcr,
    collapseWS_eq_self l h1 h2, pyLStrip_eq_self l h3, pyRStrip_eq_self l h4]

/-- Claim C4 (amended): normalization is idempotent when `strip_punct` is
false, for every NFKC mapping `f` that sends the empty text to itself and
whose normal forms are preserved by the whitespace post-processing (both hold
of Unicode NFKC: normalization forms are idempotent, U+0020 takes part in no
composition or decomposition, and contiguous substrings of a normal string
are normal).  With `strip_punct` true idempotence fails, see the
counterexample. -/
theorem claim_C4 (f : List Char → List Char) (hf0 : f [] = [])
    (hf : ∀ x, f (postNFKC (f x)) = postNFKC (f x)) (t : Option (List Char)) :
    normalize_text f (some (normalize_text f t false)) false
      = normalize_text f t false := by
  cases t with
  | none =>
    show postNFKC (f []) = []
    rw [hf0]
    rfl
  | some s =>
    show postNFKC (f (postNFKC (f s))) = postNFKC (f s)
    rw [hf s]
    exact postNFKC_fix _ (wsClean_postNFKC _)

/-- Witness for claim C4 with `f = id` (NFKC is the identity on this ASCII
text) at `t = "a b"`. -/
theorem claim_C4_witness :
    (id ([] : List Char) = []) ∧
    normalize_text id (some (normalize_text id (some "a b".toList) false)) false
      = normalize_text id (some "a b".toList) false :=
  ⟨rfl, claim_C4 id rfl (fun _ => rfl) (some "a b".toList)⟩

/-- Counterexample to claim C4 as stated (quantifying over both values of the
`strip_punctuation` flag): with `strip_punct = true` and
`t = "a 、 b"` (on whose code points real NFKC is the identity, so `f = id` is
faithful), the first pass yields `"a  b"` (removing the ideographic comma
leaves two adjacent spaces) and the second pass collapses them to `"a b"`, so
normalization is not idempotent. -/
theorem claim_C4_counterexample :
    normalize_text id (some (normalize_text id (some "a 、 b".toList) true)) true
      ≠ normalize_text id (some "a 、 b".toList) true := by
  decide

/-- Claim C9: with `strip_punct` disabled, every normalized text is free of
carriage returns and newlines, has no leading or trailing whitespace, every
whitespace character in it is an ASCII space, and no two whitespace
characters are adjacent. -/
theorem claim_C9 (f : List Char → List Char) (t : Option (List Char)) :
    ((normalize_text f t false).contains '\r' = false) ∧
    ((normalize_text f t false).contains '\n' = false) ∧
    (((normalize_text f t false).all fun c => !(pyIsSpace c) || (c == ' ')) = true) ∧
    (((normalize_text f t false).head?.all fun c => !(pyIsSpace c)) = true) ∧
    (((normalize_text f t false).getLast?.all fun c => !(pyIsSpace c)) = true) ∧
    List.Chain' (fun a b => pyIsSpace a = false ∨ pyIsSpace b = false)
      (normalize_text f t false) := by
  have hclean : wsClean (normalize_text f t false) := by
    cases t with
    | none => exact ⟨by simp [normalize_text], by simp [normalize_text],
        by simp [normalize_text], by simp [normalize_text]⟩
    | some s => exact wsClean_postNFKC (f s)
  obtain ⟨h1, h2, h3, h4⟩ := hclean
  refine ⟨?_, ?_, ?_, ?_, ?_, h2⟩
  · have : '\r' ∉ normalize_text f t false := by
      intro hm
      exact absurd (h1 '\r' hm (by decide)) (by decide)
    simpa using this
  · have : '\n' ∉ normalize_text f t false := by
      intro hm
      exact absurd (h1 '\n' hm (by decide)) (by decide)
    simpa using this
  · rw [List.all_eq_true]
    intro c hc
    by_cases hs : pyIsSpace c = true
    · have := h1 c hc hs
      subst this
      simp
    · simp [Bool.not_eq_true _ ▸ hs]
  · cases hh : (normalize_text f t false).head? with
    | none => rfl
    | some c => simp [h3 c hh]
  · cases hh : (normalize_text f t false).getLast? with
    | none => rfl
    | some c => simp [h4 c hh]

/-! ### Lemmas: bucket construction -/

lemma foldl_preserve {β σ : Type} (step : σ → β → σ) (Q : σ → Prop)
    (hstep : ∀ s b, Q s → Q (step s b)) :
    ∀ (l : List β) (s : σ), Q s → Q (l.foldl step s) := by
  intro l
  induction l with
  | nil => intro s hs; exact hs
  | cons b rest ih => intro s hs; exact ih _ (hstep s b hs)

lemma dictAppend_key_prop {α : Type} [DecidableEq α] (P : α → Prop)
    (m : List (α × List Nat)) (key : α) (idx : Nat)
    (hm : ∀ e ∈ m, P e.1) (hk : P key) :
    ∀ e ∈ dictAppend m key idx, P e.1 := by
  induction m with
  | nil =>
    intro e he
    simp [dictAppend] at he
    rw [he]
    exact hk
  | cons e0 rest ih =>
    intro e he
    unfold dictAppend at he
    by_cases h0 : e0.1 = key
    · rw [if_pos h0] at he
      rcases List.mem_cons.mp he with h | h
      · rw [h]; exact hm e0 (List.mem_cons_self _ _)
      · exact hm e (List.mem_cons_of_mem _ h)
    · rw [if_neg h0] at he
      rcases List.mem_cons.mp he with h | h
      · rw [h]; exact hm e0 (List.mem_cons_self _ _)
      · exact ih (fun x hx => hm x (List.mem_cons_of_mem _ hx)) e h

lemma addBands_key_prop (band_size bucket : Nat) (sig : List Nat) (idx : Nat)
    (m : List ((Nat × Nat × List Nat) × List Nat))
    (P : Nat × Nat × List Nat → Prop)
    (hm : ∀ e ∈ m, P e.1)
    (hnew : ∀ o band, band.length = band_size → P (bucket, o, band)) :
    ∀ e ∈ addBands band_size bucket sig idx m, P e.1 := by
  unfold addBands
  refine foldl_preserve _ (fun acc => ∀ e ∈ acc, P e.1) ?_ _ m hm
  intro acc o hacc
  by_cases hb : ((sig.drop o).take band_size).length < band_size
  · rw [if_pos hb]; exact hacc
  · rw [if_neg hb]
    refine dictAppend_key_prop P acc _ idx hacc (hnew o _ ?_)
    rw [List.length_take] at hb ⊢
    omega

lemma bucketsAux_key_prop (band_size length_bucket : Nat) (lengths : List Nat)
    (P : Nat × Nat × List Nat → Prop)
    (hnew : ∀ bucket o band, band.length = band_size →
      (length_bucket = 0 → bucket = 0) → P (bucket, o, band)) :
    ∀ (sigs : List (List Nat)) (idx : Nat)
      (m m2 : List ((Nat × Nat × List Nat) × List Nat)),
      (∀ e ∈ m, P e.1) →
      bucketsAux band_size length_bucket lengths sigs idx m = some m2 →
      ∀ e ∈ m2, P e.1 := by
  intro sigs
  induction sigs with
  | nil =>
    intro idx m m2 hm heq
    have hm2 : m = m2 := by simpa [bucketsAux] using heq
    rw [← hm2]
    exact hm
  | cons sig rest ih =>
    intro idx m m2 hm heq
    unfold bucketsAux at heq
    by_cases h1 : length_bucket ≠ 0 ∧ lengths.length ≤ idx
    · rw [if_pos h1] at heq
      exact absurd heq (by simp)
    · rw [if_neg h1] at heq
      by_cases h2 : band_size = 0
      · rw [if_pos h2] at heq
        exact absurd heq (by simp)
      · rw [if_neg h2] at heq
        refine ih (idx + 1) _ m2 ?_ heq
        refine addBands_key_prop _ _ _ _ _ P hm ?_
        intro o band hband
        refine hnew _ o band hband ?_
        intro h0
        rw [if_pos h0]

/-- `bucketsAux` completes normally when the band size is non-zero and the
length-class lookup stays in range (`length_bucket = 0` never indexes the
length list; otherwise `lengths` must cover the remaining signatures). -/
lemma bucketsAux_total (band_size length_bucket : Nat) (lengths : List Nat)
    (hbs : band_size ≠ 0) :
    ∀ (sigs : List (List Nat)) (idx : Nat)
      (m : List ((Nat × Nat × List Nat) × List Nat)),
      (length_bucket = 0 ∨ idx + sigs.length ≤ lengths.length) →
      ∃ m2, bucketsAux band_size length_bucket lengths sigs idx m = some m2 := by
  intro sigs
  induction sigs with
  | nil => intro idx m _; exact ⟨m, rfl⟩
  | cons sig rest ih =>
    intro idx m hside
    have h1 : ¬(length_bucket ≠ 0 ∧ lengths.length ≤ idx) := by
      rcases hside with h | h
      · exact fun hc => hc.1 h
      · rw [List.length_cons] at h
        exact fun hc => by omega
    unfold bucketsAux
    rw [if_neg h1, if_neg hbs]
    refine ih (idx + 1) _ ?_
    rcases hside with h | h
    · exact Or.inl h
    · rw [List.length_cons] at h
      exact Or.inr (by omega)

lemma addBands_short (band_size bucket : Nat) (sig : List Nat) (idx : Nat)
    (m : List ((Nat × Nat × List Nat) × List Nat))
    (h : sig.length < band_size) :
    addBands band_size bucket sig idx m = m := by
  unfold addBands
  generalize bandOffsets sig.length band_size = os
  induction os generalizing m with
  | nil => rfl
  | cons o rest ih =>
    rw [List.foldl_cons]
    have hb : ((sig.drop o).take band_size).length < band_size := by
      rw [List.length_take, List.length_drop]
      omega
    rw [if_pos hb]
    exact ih m

lemma bucketsAux_all_short (band_size length_bucket : Nat) (lengths : List Nat)
    (hbs : band_size ≠ 0) :
    ∀ (sigs : List (List Nat)) (idx : Nat)
      (m : List ((Nat × Nat × List Nat) × List Nat)),
      (∀ s ∈ sigs, s.length < band_size) →
      (length_bucket = 0 ∨ idx + sigs.length ≤ lengths.length) →
      bucketsAux band_size length_bucket lengths sigs idx m = some m := by
  intro sigs
  induction sigs with
  | nil => intro idx m _ _; rfl
  | cons sig rest ih =>
    intro idx m hs hside
    have h1 : ¬(length_bucket ≠ 0 ∧ lengths.length ≤ idx) := by
      rcases hside with h | h
      · exact fun hc => hc.1 h
      · rw [List.length_cons] at h
        exact fun hc => by omega
    unfold bucketsAux
    rw [if_neg h1, if_neg hbs]
    rw [addBands_short _ _ _ _ _ (hs sig (List.mem_cons_self _ _))]
    refine ih _ _ (fun s h => hs s (List.mem_cons_of_mem _ h)) ?_
    rcases hside with h | h
    · exact Or.inl h
    · rw [List.length_cons] at h
      exact Or.inr (by omega)

/-- Claim C10 (amended): for `band_size ≥ 1`, `build_buckets` terminates and
returns a bucket map whose keys all carry a complete band of exactly
`band_size` values (trailing partial bands are discarded) and length class
`0` whenever `length_bucket` is `0` — PROVIDED the length-class lookup stays
in range, i.e. `length_bucket = 0` (the length list is never indexed) or
`lengths` covers `signatures` (as in `main`, where both lists always have
equal length); with `length_bucket ≠ 0` and `lengths` shorter than
`signatures` the lookup `lengths[idx]` raises `IndexError`.  For
`band_size = 0` the zero-step `range(0, len(sig), 0)` raises `ValueError` on
every NON-EMPTY signature list; an empty signature list returns the empty
dict, because the loop body — where both exceptions originate — never runs. -/
theorem claim_C10 (sigs : List (List Nat)) (lens : List Nat) (bs lb : Nat) :
    (sigs ≠ [] → build_buckets sigs lens 0 lb = none) ∧
    (1 ≤ bs → (lb = 0 ∨ sigs.length ≤ lens.length) →
      ∃ m, build_buckets sigs lens bs lb = some m ∧
        ∀ e ∈ m, e.1.2.2.length = bs ∧ (lb = 0 → e.1.1 = 0)) := by
  constructor
  · intro hne
    cases sigs with
    | nil => exact absurd rfl hne
    | cons sig rest =>
      show bucketsAux 0 lb lens (sig :: rest) 0 [] = none
      unfold bucketsAux
      by_cases h1 : lb ≠ 0 ∧ lens.length ≤ 0
      · rw [if_pos h1]
      · rw [if_neg h1, if_pos rfl]
  · intro hbs hside
    obtain ⟨m2, hm2⟩ := bucketsAux_total bs lb lens (by omega) sigs 0 []
      (by
        rcases hside with h | h
        · exact Or.inl h
        · exact Or.inr (by omega))
    refine ⟨m2, hm2, ?_⟩
    exact bucketsAux_key_prop bs lb lens
      (fun key => key.2.2.length = bs ∧ (lb = 0 → key.1 = 0))
      (fun bucket o band hband h0 => ⟨hband, h0⟩)
      sigs 0 [] m2 (fun e he => absurd he (List.not_mem_nil e)) hm2

/-- Witness for claim C10 on a single 3-entry signature with band size 2 and
length bucketing disabled. -/
theorem claim_C10_witness :
    (([[5, 6, 7]] : List (List Nat)) ≠ [] ∧
      build_buckets [[5, 6, 7]] [10] 0 0 = none) ∧
    ((1 ≤ 2 ∧ ((0 : Nat) = 0 ∨
        ([[5, 6, 7]] : List (List Nat)).length ≤ ([10] : List Nat).length)) ∧
      ∃ m, build_buckets [[5, 6, 7]] [10] 2 0 = some m ∧
        ∀ e ∈ m, e.1.2.2.length = 2 ∧ (0 = 0 → e.1.1 = 0)) :=
  ⟨⟨by decide, (claim_C10 [[5, 6, 7]] [10] 2 0).1 (by decide)⟩,
    ⟨⟨by decide, by decide⟩,
      (claim_C10 [[5, 6, 7]] [10] 2 0).2 (by decide) (by decide)⟩⟩

/-- Counterexample to claim C10 as stated.  Its totality half fails for
`band_size ≥ 1`: with `length_bucket = 50 ≠ 0` and an empty length list,
`lengths[0]` raises `IndexError`, so `build_buckets([[1, 2]], [], 1, 50)`
does not return a bucket map.  Its raising half fails for `band_size = 0`:
`build_buckets([], [10], 0, 50)` returns the empty dict rather than raising,
because the zero-step `range` is only constructed inside the per-signature
loop body, which never runs. -/
theorem claim_C10_counterexample :
    (1 : Nat) ≤ 1 ∧ build_buckets [[1, 2]] [] 1 50 = none ∧
    build_buckets ([] : List (List Nat)) [10] 0 50 = some [] :=
  ⟨by decide, by decide, by decide⟩

/-- Claim C1 (amended): the engine performs no configuration validation —
`config_rejected` is constantly `false` because neither `parse_args` nor
`main` checks ranges — and with `band_size > sig_size` every band is a
partial band and is discarded, so the engine runs to completion and returns
an empty similar-pairs report regardless of the input records. -/
theorem claim_C1 (nfkc : List Char → List Char) (args : Args)
    (texts : List (Option (List Char))) (sim : List Char → List Char → ℚ)
    (hbs : args.sig_size < args.band_size) :
    config_rejected args = false ∧
    ∃ g, runEngine nfkc args texts sim = some (g, []) := by
  refine ⟨rfl, ?_⟩
  simp only [runEngine]
  have hsome : build_buckets
      ((texts.map fun t => normalize_text nfkc t args.strip_punct).map fun nrm =>
        minhash_signature nrm args.ngram args.sig_size)
      (((texts.map fun t => normalize_text nfkc t args.strip_punct)).map List.length)
      args.band_size args.length_bucket = some [] := by
    unfold build_buckets
    refine bucketsAux_all_short _ _ _ (by omega) _ 0 [] ?_ ?_
    · intro s hs
      rw [List.mem_map] at hs
      obtain ⟨nrm, _, rfl⟩ := hs
      rw [minhash_sig_length]
      exact hbs
    · right
      simp [List.length_map]
  rw [hsome]
  exact ⟨_, rfl⟩

/-- Witness for claim C1: the concrete invalid configuration `badArgs`
(band size 13 over signature size 12) on two records. -/
theorem claim_C1_witness :
    config_rejected badArgs = false ∧
    ∃ g, runEngine id badArgs [some tAlpha, none] (fun _ _ => 1) = some (g, []) :=
  claim_C1 id badArgs [some tAlpha, none] (fun _ _ => 1) (by decide)

/-- Counterexample to claim C1 as stated: `badArgs` has
`band_size = 13 > sig_size = 12`, yet the engine accepts the configuration
and runs to completion, producing an exact-duplicate group and an EMPTY
similar-pairs report for two identical 24-character records; the same records
under the valid `goodArgs` (band size 4) yield the similar pair `(0, 1)` —
the bad configuration silently produces degenerate always-empty output
instead of failing fast. -/
theorem claim_C1_counterexample :
    config_rejected badArgs = false ∧
    runEngine id badArgs [some tAlpha, some tAlpha] (fun _ _ => 1)
      = some ([(1, (tAlpha, [0, 1]))], []) ∧
    similarOut (runEngine id goodArgs [some tAlpha, some tAlpha] fun _ _ => 1)
      = [(0, 1)] :=
  ⟨rfl, by decide, by decide⟩

/-! ### Lemmas: the pair scorer -/

lemma innerLoop_preserve (args : Args) (normalized : List (List Char))
    (lengths : List Nat) (sim : List Char → List Char → ℚ)
    (Q : ScoreState → Prop)
    (hstep : ∀ a b st, Q st → Q (pairStep args normalized lengths sim a b st)) :
    ∀ (a : Nat) (js : List Nat) (st : ScoreState), Q st →
      Q (innerLoop args normalized lengths sim a js st) := by
  intro a js
  induction js with
  | nil => intro st h; exact h
  | cons b rest ih => intro st h; exact ih _ (hstep a b st h)

lemma bucketLoop_preserve (args : Args) (normalized : List (List Char))
    (lengths : List Nat) (sim : List Char → List Char → ℚ)
    (Q : ScoreState → Prop)
    (hstep : ∀ a b st, Q st → Q (pairStep args normalized lengths sim a b st)) :
    ∀ (idxs : List Nat) (st : ScoreState), Q st →
      Q (bucketLoop args normalized lengths sim idxs st) := by
  intro idxs
  induction idxs with
  | nil => intro st h; exact h
  | cons a rest ih =>
    intro st h
    unfold bucketLoop
    refine ih _ ?_
    by_cases hg : lengths.getD a 0 < args.min_length
    · rw [if_pos hg]; exact h
    · rw [if_neg hg]
      exact innerLoop_preserve args normalized lengths sim Q hstep a rest st h

lemma scoreBuckets_preserve (args : Args) (normalized : List (List Char))
    (lengths : List Nat) (sim : List Char → List Char → ℚ)
    (Q : ScoreState → Prop)
    (hstep : ∀ a b st, Q st → Q (pairStep args normalized lengths sim a b st)) :
    ∀ (buckets : List (List Nat)) (st : ScoreState), Q st →
      Q (scoreBuckets args normalized lengths sim buckets st) := by
  intro buckets
  induction buckets with
  | nil => intro st h; exact h
  | cons idxs more ih =>
    intro st h
    unfold scoreBuckets
    refine ih _ ?_
    by_cases h1 : idxs.length < 2
    · rw [if_pos h1]; exact h
    · rw [if_neg h1]
      by_cases h2 : args.max_block_size ≠ 0 ∧ idxs.length > args.max_block_size
      · rw [if_pos h2]; exact h
      · rw [if_neg h2]
        exact bucketLoop_preserve args normalized lengths sim Q hstep idxs st h

lemma pairId_comm (a b : Nat) : pairId a b = pairId b a := by
  unfold pairId
  rcases Nat.lt_trichotomy a b with h | h | h
  · rw [if_pos h, if_neg (by omega : ¬ b < a)]
  · subst h
    rfl
  · rw [if_neg (by omega : ¬ a < b), if_pos h]

lemma samePair_pairId {p q : Nat × Nat} (h : samePair p q) :
    pairId p.1 p.2 = pairId q.1 q.2 := by
  rcases h with ⟨h1, h2⟩ | ⟨h1, h2⟩
  · rw [h1, h2]
  · rw [h1, h2, pairId_comm]

/-- The scorer invariant for duplicate-freedom: every emitted pair is
registered in `seen_pairs` under its canonical id, and no two emitted pairs
share a canonical id. -/
lemma pairStep_invC7 (args : Args) (normalized : List (List Char))
    (lengths : List Nat) (sim : List Char → List Char → ℚ) (a b : Nat)
    (st : ScoreState)
    (hq : (∀ p ∈ st.out, pairId p.1 p.2 ∈ st.seen) ∧
      st.out.Pairwise fun p q => pairId p.1 p.2 ≠ pairId q.1 q.2) :
    (∀ p ∈ (pairStep args normalized lengths sim a b st).out,
      pairId p.1 p.2 ∈ (pairStep args normalized lengths sim a b st).seen) ∧
    (pairStep args normalized lengths sim a b st).out.Pairwise
      fun p q => pairId p.1 p.2 ≠ pairId q.1 q.2 := by
  have hst1 : (∀ p ∈ st.out, pairId p.1 p.2 ∈ pairId a b :: st.seen) ∧
      st.out.Pairwise (fun p q => pairId p.1 p.2 ≠ pairId q.1 q.2) :=
    ⟨fun p hp => List.mem_cons_of_mem _ (hq.1 p hp), hq.2⟩
  simp only [pairStep]
  split_ifs with hc1 hc2 hc3 hc4 hc5
  · exact hq
  · exact hq
  · exact hst1
  · exact hst1
  · exact hst1
  · constructor
    · intro p hp
      rcases List.mem_append.mp hp with h | h
      · exact List.mem_cons_of_mem _ (hq.1 p h)
      · have hp2 : p = (a, b) := by simpa using h
        rw [hp2]
        exact List.mem_cons_self _ _
    · rw [List.pairwise_append]
      refine ⟨hq.2, List.pairwise_singleton _ _, ?_⟩
      intro p hp q hq2
      have hq3 : q = (a, b) := by simpa using hq2
      rw [hq3]
      intro heq
      exact hc2 (heq ▸ hq.1 p hp)

/-- Claim C7: in a single engine run no unordered pair of record indices
appears more than once in the similar-pairs output; deduplication goes
through the canonical pair id with the smaller index first. -/
theorem claim_C7 (nfkc : List Char → List Char) (args : Args)
    (texts : List (Option (List Char))) (sim : List Char → List Char → ℚ) :
    (similarOut (runEngine nfkc args texts sim)).Pairwise
      fun p q => ¬ samePair p q := by
  simp only [runEngine]
  cases hb : build_buckets
      ((texts.map fun t => normalize_text nfkc t args.strip_punct).map fun nrm =>
        minhash_signature nrm args.ngram args.sig_size)
      (((texts.map fun t => normalize_text nfkc t args.strip_punct)).map List.length)
      args.band_size args.length_bucket with
  | none => simp [similarOut]
  | some m =>
    simp only [similarOut]
    have hrun := scoreBuckets_preserve args
      (texts.map fun t => normalize_text nfkc t args.strip_punct)
      ((texts.map fun t => normalize_text nfkc t args.strip_punct).map List.length)
      sim
      (fun st => (∀ p ∈ st.out, pairId p.1 p.2 ∈ st.seen) ∧
        st.out.Pairwise fun p q => pairId p.1 p.2 ≠ pairId q.1 q.2)
      (fun a b st h => pairStep_invC7 args _ _ sim a b st h)
      (m.map Prod.snd) ⟨[], []⟩
      ⟨fun p hp => absurd hp (List.not_mem_nil p), List.Pairwise.nil⟩
    exact hrun.2.imp fun hne hsp => hne (samePair_pairId hsp)

/-- The scorer invariant for the length-delta filter: every emitted pair has
relative length difference at most `length_delta` (the `0/0 = 0` convention
of `ℚ` covers the two-empty-texts corner, where the filter is skipped). -/
lemma pairStep_invC8 (args : Args) (normalized : List (List Char))
    (lengths : List Nat) (sim : List Char → List Char → ℚ) (a b : Nat)
    (st : ScoreState) (hld : 0 < args.length_delta)
    (hq : ∀ p ∈ st.out,
      |(lengths.getD p.1 0 : ℚ) - (lengths.getD p.2 0 : ℚ)| /
        ((max (lengths.getD p.1 0) (lengths.getD p.2 0) : Nat) : ℚ)
        ≤ args.length_delta) :
    ∀ p ∈ (pairStep args normalized lengths sim a b st).out,
      |(lengths.getD p.1 0 : ℚ) - (lengths.getD p.2 0 : ℚ)| /
        ((max (lengths.getD p.1 0) (lengths.getD p.2 0) : Nat) : ℚ)
        ≤ args.length_delta := by
  simp only [pairStep]
  split_ifs with hc1 hc2 hc3 hc4 hc5
  · exact hq
  · exact hq
  · exact hq
  · exact hq
  · exact hq
  · intro p hp
    rcases List.mem_append.mp hp with h | h
    · exact hq p h
    · have hp2 : p = (a, b) := by simpa using h
      subst hp2
      push_neg at hc4
      by_cases hmax : max (lengths.getD a 0) (lengths.getD b 0) = 0
      · have ha0 : lengths.getD a 0 = 0 := by omega
        have hb0 : lengths.getD b 0 = 0 := by omega
        simp only [ha0, hb0]
        simp
        exact le_of_lt hld
      · exact hc4 hmax (ne_of_gt hld)

/-- Claim C8: when the length-delta filter is enabled (a positive
`length_delta`, per the configuration contract `length_delta ≥ 0`), every
pair in the similar-pairs output satisfies
`|len_i - len_j| / max(len_i, len_j) ≤ length_delta` on the normalized text
lengths. -/
theorem claim_C8 (nfkc : List Char → List Char) (args : Args)
    (texts : List (Option (List Char))) (sim : List Char → List Char → ℚ)
    (hld : 0 < args.length_delta) :
    ∀ p ∈ similarOut (runEngine nfkc args texts sim),
      |((normLengths nfkc args texts).getD p.1 0 : ℚ)
        - ((normLengths nfkc args texts).getD p.2 0 : ℚ)| /
        ((max ((normLengths nfkc args texts).getD p.1 0)
          ((normLengths nfkc args texts).getD p.2 0) : Nat) : ℚ)
      ≤ args.length_delta := by
  simp only [runEngine, normLengths]
  cases hb : build_buckets
      ((texts.map fun t => normalize_text nfkc t args.strip_punct).map fun nrm =>
        minhash_signature nrm args.ngram args.sig_size)
      (((texts.map fun t => normalize_text nfkc t args.strip_punct)).map List.length)
      args.band_size args.length_bucket with
  | none => intro p hp; simp [similarOut] at hp
  | some m =>
    simp only [similarOut]
    exact scoreBuckets_preserve args
      (texts.map fun t => normalize_text nfkc t args.strip_punct)
      ((texts.map fun t => normalize_text nfkc t args.strip_punct).map List.length)
      sim
      (fun st => ∀ p ∈ st.out,
        |(((texts.map fun t => normalize_text nfkc t args.strip_punct).map
            List.length).getD p.1 0 : ℚ)
          - (((texts.map fun t => normalize_text nfkc t args.strip_punct).map
            List.length).getD p.2 0 : ℚ)| /
          ((max (((texts.map fun t => normalize_text nfkc t args.strip_punct).map
              List.length).getD p.1 0)
            (((texts.map fun t => normalize_text nfkc t args.strip_punct).map
              List.length).getD p.2 0) : Nat) : ℚ)
          ≤ args.length_delta)
      (fun a b st h => pairStep_invC8 args _ _ sim a b st hld h)
      (m.map Prod.snd) ⟨[], []⟩
      (fun p hp => absurd hp (List.not_mem_nil p))

/-- Witness for claim C8: the enabled filter `length_delta = 1` on two
identical 24-character records. -/
theorem claim_C8_witness :
    (0 : ℚ) < ldArgs.length_delta ∧
    ∀ p ∈ similarOut (runEngine id ldArgs [some tAlpha, some tAlpha] fun _ _ => 1),
      |((normLengths id ldArgs [some tAlpha, some tAlpha]).getD p.1 0 : ℚ)
        - ((normLengths id ldArgs [some tAlpha, some tAlpha]).getD p.2 0 : ℚ)| /
        ((max ((normLengths id ldArgs [some tAlpha, some tAlpha]).getD p.1 0)
          ((normLengths id ldArgs [some tAlpha, some tAlpha]).getD p.2 0) : Nat) : ℚ)
      ≤ ldArgs.length_delta :=
  ⟨by decide,
    claim_C8 id ldArgs [some tAlpha, some tAlpha] (fun _ _ => 1) (by decide)⟩

/-- One scorer step under a raised threshold: the `seen_pairs` evolution is
identical (it is updated before the threshold test) and the emitted rows form
a sublist of the lower-threshold run's rows. -/
lemma pairStep_rel (args args' : Args)
    (hmin : args'.min_length = args.min_length)
    (hid : args'.include_identical = args.include_identical)
    (hld : args'.length_delta = args.length_delta)
    (hth : args.similarity_threshold ≤ args'.similarity_threshold)
    (normalized : List (List Char)) (lengths : List Nat)
    (sim : List Char → List Char → ℚ) (a b : Nat) (st st' : ScoreState)
    (hs : st'.seen = st.seen) (ho : st'.out.Sublist st.out) :
    (pairStep args' normalized lengths sim a b st').seen
      = (pairStep args normalized lengths sim a b st).seen ∧
    (pairStep args' normalized lengths sim a b st').out.Sublist
      (pairStep args normalized lengths sim a b st).out := by
  simp only [pairStep, hmin, hid, hld, hs]
  by_cases c1 : lengths.getD b 0 < args.min_length
  · simp only [if_pos c1]; exact ⟨hs, ho⟩
  · simp only [if_neg c1]
    by_cases c2 : pairId a b ∈ st.seen
    · simp only [if_pos c2]; exact ⟨hs, ho⟩
    · simp only [if_neg c2]
      by_cases c3 : !args.include_identical
          ∧ normalized.getD a [] = normalized.getD b []
      · simp only [if_pos c3]; exact ⟨True.intro, ho⟩
      · simp only [if_neg c3]
        by_cases c4 : max (lengths.getD a 0) (lengths.getD b 0) ≠ 0 ∧
            args.length_delta ≠ 0 ∧
            |(lengths.getD a 0 : ℚ) - (lengths.getD b 0 : ℚ)| /
              ((max (lengths.getD a 0) (lengths.getD b 0) : Nat) : ℚ)
              > args.length_delta
        · simp only [if_pos c4]; exact ⟨True.intro, ho⟩
        · simp only [if_neg c4]
          by_cases c5 : sim (normalized.getD a []) (normalized.getD b [])
              < args.similarity_threshold
          · have c5' : sim (normalized.getD a []) (normalized.getD b [])
                < args'.similarity_threshold := lt_of_lt_of_le c5 hth
            simp only [if_pos c5, if_pos c5']
            exact ⟨True.intro, ho⟩
          · by_cases c5' : sim (normalized.getD a []) (normalized.getD b [])
                < args'.similarity_threshold
            · simp only [if_pos c5', if_neg c5]
              exact ⟨True.intro, ho.trans (List.sublist_append_left _ _)⟩
            · simp only [if_neg c5', if_neg c5]
              exact ⟨True.intro, ho.append_right _⟩

lemma innerLoop_rel (args args' : Args)
    (hmin : args'.min_length = args.min_length)
    (hid : args'.include_identical = args.include_identical)
    (hld : args'.length_delta = args.length_delta)
    (hth : args.similarity_threshold ≤ args'.similarity_threshold)
    (normalized : List (List Char)) (lengths : List Nat)
    (sim : List Char → List Char → ℚ) :
    ∀ (a : Nat) (js : List Nat) (st st' : ScoreState),
      st'.seen = st.seen → st'.out.Sublist st.out →
      (innerLoop args' normalized lengths sim a js st').seen
        = (innerLoop args normalized lengths sim a js st).seen ∧
      (innerLoop args' normalized lengths sim a js st').out.Sublist
        (innerLoop args normalized lengths sim a js st).out := by
  intro a js
  induction js with
  | nil => intro st st' hs ho; exact ⟨hs, ho⟩
  | cons b rest ih =>
    intro st st' hs ho
    unfold innerLoop
    obtain ⟨hs2, ho2⟩ := pairStep_rel args args' hmin hid hld hth
      normalized lengths sim a b st st' hs ho
    exact ih _ _ hs2 ho2

lemma bucketLoop_rel (args args' : Args)
    (hmin : args'.min_length = args.min_length)
    (hid : args'.include_identical = args.include_identical)
    (hld : args'.length_delta = args.length_delta)
    (hth : args.similarity_threshold ≤ args'.similarity_threshold)
    (normalized : List (List Char)) (lengths : List Nat)
    (sim : List Char → List Char → ℚ) :
    ∀ (idxs : List Nat) (st st' : ScoreState),
      st'.seen = st.seen → st'.out.Sublist st.out →
      (bucketLoop args' normalized lengths sim idxs st').seen
        = (bucketLoop args normalized lengths sim idxs st).seen ∧
      (bucketLoop args' normalized lengths sim idxs st').out.Sublist
        (bucketLoop args normalized lengths sim idxs st).out := by
  intro idxs
  induction idxs with
  | nil => intro st st' hs ho; exact ⟨hs, ho⟩
  | cons a rest ih =>
    intro st st' hs ho
    unfold bucketLoop
    simp only [hmin]
    by_cases hg : lengths.getD a 0 < args.min_length
    · simp only [if_pos hg]
      exact ih _ _ hs ho
    · simp only [if_neg hg]
      obtain ⟨hs2, ho2⟩ := innerLoop_rel args args' hmin hid hld hth
        normalized lengths sim a rest st st' hs ho
      exact ih _ _ hs2 ho2

lemma scoreBuckets_rel (args args' : Args)
    (hmin : args'.min_length = args.min_length)
    (hid : args'.include_identical = args.include_identical)
    (hld : args'.length_delta = args.length_delta)
    (hmbs : args'.max_block_size = args.max_block_size)
    (hth : args.similarity_threshold ≤ args'.similarity_threshold)
    (normalized : List (List Char)) (lengths : List Nat)
    (sim : List Char → List Char → ℚ) :
    ∀ (buckets : List (List Nat)) (st st' : ScoreState),
      st'.seen = st.seen → st'.out.Sublist st.out →
      (scoreBuckets args' normalized lengths sim buckets st').seen
        = (scoreBuckets args normalized lengths sim buckets st).seen ∧
      (scoreBuckets args' normalized lengths sim buckets st').out.Sublist
        (scoreBuckets args normalized lengths sim buckets st).out := by
  intro buckets
  induction buckets with
  | nil => intro st st' hs ho; exact ⟨hs, ho⟩
  | cons idxs more ih =>
    intro st st' hs ho
    unfold scoreBuckets
    simp only [hmbs]
    by_cases h1 : idxs.length < 2
    · simp only [if_pos h1]
      exact ih _ _ hs ho
    · simp only [if_neg h1]
      by_cases h2 : args.max_block_size ≠ 0 ∧ idxs.length > args.max_block_size
      · simp only [if_pos h2]
        exact ih _ _ hs ho
      · simp only [if_neg h2]
        obtain ⟨hs2, ho2⟩ := bucketLoop_rel args args' hmin hid hld hth
          normalized lengths sim idxs st st' hs ho
        exact ih _ _ hs2 ho2

/-- Claim C6: raising the similarity threshold with everything else fixed
never adds accepted pairs — the higher-threshold output is a sublist of the
lower-threshold output, so its count is no larger. -/
theorem claim_C6 (nfkc : List Char → List Char) (args : Args)
    (texts : List (Option (List Char))) (sim : List Char → List Char → ℚ)
    (th2 : ℚ) (hth : args.similarity_threshold ≤ th2) :
    (similarOut (runEngine nfkc {args with similarity_threshold := th2} texts sim)).Sublist
      (similarOut (runEngine nfkc args texts sim)) ∧
    (similarOut (runEngine nfkc {args with similarity_threshold := th2} texts sim)).length
      ≤ (similarOut (runEngine nfkc args texts sim)).length := by
  have hsub : (similarOut (runEngine nfkc {args with similarity_threshold := th2} texts sim)).Sublist
      (similarOut (runEngine nfkc args texts sim)) := by
    simp only [runEngine]
    cases hb : build_buckets
        ((texts.map fun t => normalize_text nfkc t args.strip_punct).map fun nrm =>
          minhash_signature nrm args.ngram args.sig_size)
        (((texts.map fun t => normalize_text nfkc t args.strip_punct)).map List.length)
        args.band_size args.length_bucket with
    | none => simp [similarOut]
    | some m =>
      simp only [similarOut]
      exact (scoreBuckets_rel args {args with similarity_threshold := th2}
        rfl rfl rfl rfl hth
        (texts.map fun t => normalize_text nfkc t args.strip_punct)
        ((texts.map fun t => normalize_text nfkc t args.strip_punct).map List.length)
        sim (m.map Prod.snd) ⟨[], []⟩ ⟨[], []⟩ rfl (List.Sublist.refl _)).2
  exact ⟨hsub, hsub.length_le⟩

/-- Witness for claim C6: raising the threshold from 1 to 2 on two identical
24-character records (scored 1 by the oracle) shrinks the output from one
pair to a sublist of it. -/
theorem claim_C6_witness :
    goodArgs.similarity_threshold ≤ (2 : ℚ) ∧
    ((similarOut (runEngine id {goodArgs with similarity_threshold := (2 : ℚ)}
        [some tAlpha, some tAlpha] fun _ _ => 1)).Sublist
      (similarOut (runEngine id goodArgs [some tAlpha, some tAlpha] fun _ _ => 1)) ∧
    (similarOut (runEngine id {goodArgs with similarity_threshold := (2 : ℚ)}
        [some tAlpha, some tAlpha] fun _ _ => 1)).length
      ≤ (similarOut (runEngine id goodArgs [some tAlpha, some tAlpha] fun _ _ => 1)).length) :=
  ⟨by decide,
    claim_C6 id goodArgs [some tAlpha, some tAlpha] (fun _ _ => 1) 2 (by decide)⟩

/-! ### Lemmas: the exact-duplicate grouper -/

lemma getD_of_drop {α : Type} (d : α) :
    ∀ (pos : Nat) (l : List α) (t : α) (r : List α),
      l.drop pos = t :: r → l.getD pos d = t := by
  intro pos
  induction pos with
  | zero =>
    intro l t r h
    rw [List.drop_zero] at h
    rw [h]
    rfl
  | succ p ih =>
    intro l t r h
    cases l with
    | nil => simp at h
    | cons a l2 =>
      rw [List.drop_succ_cons] at h
      rw [List.getD_cons_succ]
      exact ih l2 t r h

lemma drop_succ_of_drop {α : Type} (pos : Nat) (l : List α) (t : α)
    (r : List α) (h : l.drop pos = t :: r) : l.drop (pos + 1) = r := by
  have h2 := congrArg (List.drop 1) h
  rw [List.drop_drop] at h2
  simpa using h2

lemma dictAppend_of_not_mem {α : Type} [DecidableEq α] :
    ∀ (m : List (α × List Nat)) (key : α) (idx : Nat),
      (∀ e ∈ m, e.1 ≠ key) → dictAppend m key idx = m ++ [(key, [idx])] := by
  intro m
  induction m with
  | nil => intro key idx _; rfl
  | cons e rest ih =>
    intro key idx h
    unfold dictAppend
    rw [if_neg (h e (List.mem_cons_self _ _))]
    rw [ih key idx (fun x hx => h x (List.mem_cons_of_mem _ hx))]
    rfl

lemma dictAppend_of_mem {α : Type} [DecidableEq α] :
    ∀ (s t : List (α × List Nat)) (key : α) (v : List Nat) (idx : Nat),
      (∀ e ∈ s, e.1 ≠ key) →
      dictAppend (s ++ (key, v) :: t) key idx = s ++ (key, v ++ [idx]) :: t := by
  intro s
  induction s with
  | nil =>
    intro t key v idx _
    show dictAppend ((key, v) :: t) key idx = (key, v ++ [idx]) :: t
    unfold dictAppend
    rw [if_pos rfl]
  | cons e rest ih =>
    intro t key v idx h
    show dictAppend (e :: (rest ++ (key, v) :: t)) key idx
      = e :: (rest ++ (key, v ++ [idx]) :: t)
    unfold dictAppend
    rw [if_neg (h e (List.mem_cons_self _ _))]
    rw [ih t key v idx (fun x hx => h x (List.mem_cons_of_mem _ hx))]

lemma pairwise_entry_replace {α γ : Type} (R : γ → γ → Prop) (f : α → γ)
    (s t : List α) (x y : α) (hxy : f x = f y)
    (h : (s ++ x :: t).Pairwise fun a b => R (f a) (f b)) :
    (s ++ y :: t).Pairwise fun a b => R (f a) (f b) := by
  rw [← List.pairwise_map] at h ⊢
  rw [List.map_append, List.map_cons] at h ⊢
  rw [← hxy]
  exact h

lemma headD_mem {l : List Nat} (h : l ≠ []) : l.headD 0 ∈ l := by
  cases l with
  | nil => exact absurd rfl h
  | cons a t => simp

lemma two_le_length_of_mem {i j : Nat} {l : List Nat}
    (hi : i ∈ l) (hj : j ∈ l) (hne : i ≠ j) : 2 ≤ l.length := by
  cases l with
  | nil => exact absurd hi (List.not_mem_nil i)
  | cons a t =>
    cases t with
    | nil =>
      simp at hi hj
      omega
    | cons b t2 => simp [List.length_cons]

/-- Inserting the record at `pos` (with non-empty normalized text) preserves
the `exact_map` invariant. -/
lemma mapInv_insert (norms : List (List Char)) (pos : Nat)
    (m : List (List Char × List Nat)) (hInv : MapInv norms pos m)
    (ht : norms.getD pos [] ≠ []) :
    MapInv norms (pos + 1) (dictAppend m (norms.getD pos []) pos) := by
  obtain ⟨hrec, hcomp, hkeys, hheads⟩ := hInv
  by_cases hkey : ∃ e ∈ m, e.1 = norms.getD pos []
  · obtain ⟨e, hem, hek⟩ := hkey
    obtain ⟨s, t, hst⟩ := List.append_of_mem hem
    obtain ⟨k0, v⟩ := e
    simp only at hek
    subst hek
    subst hst
    have hs_ne : ∀ x ∈ s, x.1 ≠ norms.getD pos [] := by
      intro x hx
      exact (List.pairwise_append.mp hkeys).2.2 x hx _ (List.mem_cons_self _ _)
    rw [dictAppend_of_mem s t _ v pos hs_ne]
    have hself := hrec (norms.getD pos [], v) (by simp)
    have hvne : v ≠ [] := hself.2.1
    have hvmem : ∀ i ∈ v, i < pos ∧ norms.getD i [] = norms.getD pos [] :=
      fun i hi => hself.2.2.2 i hi
    refine ⟨?_, ?_, ?_, ?_⟩
    · intro e2 he2
      rcases List.mem_append.mp he2 with h2 | h2
      · have hold := hrec e2 (List.mem_append.mpr (Or.inl h2))
        exact ⟨hold.1, hold.2.1, hold.2.2.1,
          fun i hi => ⟨Nat.lt_succ_of_lt (hold.2.2.2 i hi).1, (hold.2.2.2 i hi).2⟩⟩
      · rcases List.mem_cons.mp h2 with h2 | h2
        · subst h2
          refine ⟨ht, by simp, ?_, ?_⟩
          · rw [List.pairwise_append]
            refine ⟨hself.2.2.1, List.pairwise_singleton _ _, ?_⟩
            intro i hi j hj
            have h3 := (hvmem i hi).1
            have h4 : j = pos := by simpa using hj
            omega
          · intro i hi
            rcases List.mem_append.mp hi with h3 | h3
            · exact ⟨Nat.lt_succ_of_lt (hvmem i h3).1, (hvmem i h3).2⟩
            · have h4 : i = pos := by simpa using h3
              rw [h4]
              exact ⟨Nat.lt_succ_self _, rfl⟩
        · have hold := hrec e2
            (List.mem_append.mpr (Or.inr (List.mem_cons_of_mem _ h2)))
          exact ⟨hold.1, hold.2.1, hold.2.2.1,
            fun i hi => ⟨Nat.lt_succ_of_lt (hold.2.2.2 i hi).1, (hold.2.2.2 i hi).2⟩⟩
    · intro i hi hne
      by_cases hip : i < pos
      · obtain ⟨e0, he0, hie⟩ := hcomp i hip hne
        rcases List.mem_append.mp he0 with h0 | h0
        · exact ⟨e0, List.mem_append.mpr (Or.inl h0), hie⟩
        · rcases List.mem_cons.mp h0 with h0 | h0
          · refine ⟨(norms.getD pos [], v ++ [pos]), by simp, ?_⟩
            rw [h0] at hie
            exact List.mem_append.mpr (Or.inl hie)
          · exact ⟨e0,
              List.mem_append.mpr (Or.inr (List.mem_cons_of_mem _ h0)), hie⟩
      · have hip2 : i = pos := by omega
        rw [hip2]
        exact ⟨(norms.getD pos [], v ++ [pos]), by simp, by simp⟩
    · exact pairwise_entry_replace Ne Prod.fst s t
        (norms.getD pos [], v) (norms.getD pos [], v ++ [pos]) rfl hkeys
    · refine pairwise_entry_replace (· < ·) (fun e => e.2.headD 0) s t
        (norms.getD pos [], v) (norms.getD pos [], v ++ [pos]) ?_ hheads
      show v.headD 0 = (v ++ [pos]).headD 0
      cases v with
      | nil => exact absurd rfl hvne
      | cons a t2 => simp
  · push_neg at hkey
    rw [dictAppend_of_not_mem m _ pos hkey]
    refine ⟨?_, ?_, ?_, ?_⟩
    · intro e2 he2
      rcases List.mem_append.mp he2 with h2 | h2
      · have hold := hrec e2 h2
        exact ⟨hold.1, hold.2.1, hold.2.2.1,
          fun i hi => ⟨Nat.lt_succ_of_lt (hold.2.2.2 i hi).1, (hold.2.2.2 i hi).2⟩⟩
      · have h2' : e2 = (norms.getD pos [], [pos]) := by simpa using h2
        rw [h2']
        refine ⟨ht, by simp, List.pairwise_singleton _ _, ?_⟩
        intro i hi
        have h3 : i = pos := by simpa using hi
        rw [h3]
        exact ⟨Nat.lt_succ_self _, rfl⟩
    · intro i hi hne
      by_cases hip : i < pos
      · obtain ⟨e0, he0, hie⟩ := hcomp i hip hne
        exact ⟨e0, List.mem_append.mpr (Or.inl he0), hie⟩
      · have hip2 : i = pos := by omega
        rw [hip2]
        exact ⟨(norms.getD pos [], [pos]), by simp, by simp⟩
    · rw [List.pairwise_append]
      refine ⟨hkeys, List.pairwise_singleton _ _, ?_⟩
      intro a ha b hb
      have hb2 : b = (norms.getD pos [], [pos]) := by simpa using hb
      rw [hb2]
      exact hkey a ha
    · rw [List.pairwise_append]
      refine ⟨hheads, List.pairwise_singleton _ _, ?_⟩
      intro a ha b hb
      have hb2 : b = (norms.getD pos [], [pos]) := by simpa using hb
      rw [hb2]
      have hane := (hrec a ha).2.1
      have hlt := ((hrec a ha).2.2.2 (a.2.headD 0) (headD_mem hane)).1
      simpa using hlt

/-- Skipping the record at `pos` (empty normalized text) preserves the
invariant. -/
lemma mapInv_skip (norms : List (List Char)) (pos : Nat)
    (m : List (List Char × List Nat)) (hInv : MapInv norms pos m)
    (ht : norms.getD pos [] = []) : MapInv norms (pos + 1) m := by
  obtain ⟨hrec, hcomp, hkeys, hheads⟩ := hInv
  refine ⟨?_, ?_, hkeys, hheads⟩
  · intro e2 he2
    have hold := hrec e2 he2
    exact ⟨hold.1, hold.2.1, hold.2.2.1,
      fun i hi => ⟨Nat.lt_succ_of_lt (hold.2.2.2 i hi).1, (hold.2.2.2 i hi).2⟩⟩
  · intro i hi hne
    by_cases hip : i < pos
    · exact hcomp i hip hne
    · have hip2 : i = pos := by omega
      rw [hip2] at hne
      exact absurd ht hne

lemma buildExactMapAux_inv (norms : List (List Char)) :
    ∀ (rest : List (List Char)) (pos : Nat) (m : List (List Char × List Nat)),
      norms.drop pos = rest → MapInv norms pos m →
      MapInv norms (pos + rest.length) (buildExactMapAux rest pos m) := by
  intro rest
  induction rest with
  | nil => intro pos m _ hInv; simpa using hInv
  | cons t r2 ih =>
    intro pos m hdrop hInv
    have hkey : norms.getD pos [] = t := getD_of_drop [] pos norms t r2 hdrop
    have hdrop2 : norms.drop (pos + 1) = r2 :=
      drop_succ_of_drop pos norms t r2 hdrop
    unfold buildExactMapAux
    have hstep : MapInv norms (pos + 1) (if t = [] then m else dictAppend m t pos) := by
      by_cases he : t = []
      · rw [if_pos he]
        exact mapInv_skip norms pos m hInv (he ▸ hkey)
      · rw [if_neg he, ← hkey]
        exact mapInv_insert norms pos m hInv (by rw [hkey]; exact he)
    have hres := ih (pos + 1) _ hdrop2 hstep
    have harith : pos + (t :: r2).length = pos + 1 + r2.length := by
      simp [List.length_cons]
      omega
    rw [harith]
    exact hres

/-- The finished `exact_map` satisfies the invariant at `norms.length`. -/
lemma buildExactMap_inv (norms : List (List Char)) :
    MapInv norms norms.length (buildExactMap norms) := by
  have h := buildExactMapAux_inv norms norms 0 [] (by rw [List.drop_zero])
    ⟨fun e he => absurd he (List.not_mem_nil e),
     fun i hi _ => absurd hi (Nat.not_lt_zero i),
     List.Pairwise.nil, List.Pairwise.nil⟩
  simpa using h

/-- Claim C5: two records with the same non-empty normalized text always land
in one common emitted group; emitted groups have at least two members, never
contain an empty-normalized-text record, carry the sequential ids
`1, 2, ...` in order of first encounter of the group's first member, and list
their members in input order. -/
theorem claim_C5 (norms : List (List Char)) (i j : Nat) (hij : i ≠ j)
    (hi : i < norms.length) (hj : j < norms.length)
    (heq : norms.getD i [] = norms.getD j []) (hne : norms.getD i [] ≠ []) :
    (∃ g ∈ exactGroups norms, i ∈ g.2.2 ∧ j ∈ g.2.2) ∧
    (∀ g ∈ exactGroups norms, 2 ≤ g.2.2.length) ∧
    (∀ g ∈ exactGroups norms, ∀ a ∈ g.2.2, norms.getD a [] ≠ []) ∧
    ((exactGroups norms).map Prod.fst
      = List.range' 1 (exactGroups norms).length 1) ∧
    ((exactGroups norms).Pairwise fun g1 g2 => g1.2.2.headD 0 < g2.2.2.headD 0) ∧
    (∀ g ∈ exactGroups norms, g.2.2.Pairwise (· < ·)) := by
  obtain ⟨hrec, hcomp, hkeys, hheads⟩ := buildExactMap_inv norms
  have hEG : exactGroups norms
      = (List.range' 1 ((buildExactMap norms).filter fun e => 2 ≤ e.2.length).length 1).zip
        ((buildExactMap norms).filter fun e => 2 ≤ e.2.length) := rfl
  have hZlen : (exactGroups norms).length
      = ((buildExactMap norms).filter fun e => 2 ≤ e.2.length).length := by
    rw [hEG, List.length_zip, List.length_range', Nat.min_self]
  have hsnd : ∀ g ∈ exactGroups norms,
      g.2 ∈ (buildExactMap norms).filter fun e => 2 ≤ e.2.length := by
    intro g hg
    rw [hEG] at hg
    obtain ⟨gid, ge⟩ := g
    exact (List.of_mem_zip hg).2
  have hsnd2 : ∀ g ∈ exactGroups norms, g.2 ∈ buildExactMap norms :=
    fun g hg => (List.mem_filter.mp (hsnd g hg)).1
  refine ⟨?_, ?_, ?_, ?_, ?_, ?_⟩
  · -- completeness: i and j share a group
    obtain ⟨e, he, hie⟩ := hcomp i hi hne
    obtain ⟨e2, he2, hje⟩ := hcomp j hj (by rw [← heq]; exact hne)
    have hkeyi : norms.getD i [] = e.1 := ((hrec e he).2.2.2 i hie).2
    have hkeyj : norms.getD j [] = e2.1 := ((hrec e2 he2).2.2.2 j hje).2
    have hee : e = e2 := by
      by_contra hcon
      exact (List.Pairwise.forall
        (fun a b h => fun eq2 => h eq2.symm) hkeys he he2 hcon)
        (by rw [← hkeyi, heq, hkeyj])
    subst hee
    have h2len : 2 ≤ e.2.length := two_le_length_of_mem hie hje hij
    have hegs : e ∈ (buildExactMap norms).filter fun x => 2 ≤ x.2.length :=
      List.mem_filter.mpr ⟨he, by simpa using h2len⟩
    obtain ⟨idx, hlt, hget⟩ := List.mem_iff_getElem.mp hegs
    have hzlen : idx < (exactGroups norms).length := by
      rw [hZlen]
      exact hlt
    have hb : idx < ((List.range' 1 ((buildExactMap norms).filter fun e => 2 ≤ e.2.length).length 1).zip
        ((buildExactMap norms).filter fun e => 2 ≤ e.2.length)).length := by
      rw [← hEG]
      exact hzlen
    refine ⟨(exactGroups norms)[idx], List.getElem_mem hzlen, ?_⟩
    have hcast : (exactGroups norms)[idx]
        = ((List.range' 1 ((buildExactMap norms).filter fun e => 2 ≤ e.2.length).length 1).zip
          ((buildExactMap norms).filter fun e => 2 ≤ e.2.length))[idx] := rfl
    rw [hcast, List.getElem_zip]
    exact ⟨hget ▸ hie, hget ▸ hje⟩
  · intro g hg
    have := (List.mem_filter.mp (hsnd g hg)).2
    simpa using this
  · intro g hg a ha
    have hkeya : norms.getD a [] = g.2.1 := ((hrec g.2 (hsnd2 g hg)).2.2.2 a ha).2
    rw [hkeya]
    exact (hrec g.2 (hsnd2 g hg)).1
  · rw [hZlen, hEG, List.map_fst_zip _ _ (by rw [List.length_range'])]
  · have hgsp : ((buildExactMap norms).filter fun e => 2 ≤ e.2.length).Pairwise
        (fun e1 e2 => e1.2.headD 0 < e2.2.headD 0) :=
      List.Pairwise.sublist (List.filter_sublist _) hheads
    have hmapsnd : ((exactGroups norms).map Prod.snd)
        = (buildExactMap norms).filter fun e => 2 ≤ e.2.length := by
      rw [hEG]
      exact List.map_snd_zip _ _ (by rw [List.length_range'])
    have h2 := hmapsnd ▸ hgsp
    exact (@List.pairwise_map _ _ Prod.snd
      (fun e1 e2 => e1.2.headD 0 < e2.2.headD 0) (exactGroups norms)).mp h2
  · intro g hg
    exact (hrec g.2 (hsnd2 g hg)).2.2.1

/-- Witness for claim C5 on the normalized texts
`[['a'], ['b'], ['a'], [], [], ['b'], ['c']]` with `i = 0`, `j = 2`. -/
theorem claim_C5_witness :
    ((0 : Nat) ≠ 2 ∧ 0 < 7 ∧ 2 < 7 ∧
      ([['a'], ['b'], ['a'], [], [], ['b'], ['c']] : List (List Char)).getD 0 []
        = [['a'], ['b'], ['a'], [], [], ['b'], ['c']].getD 2 [] ∧
      ([['a'], ['b'], ['a'], [], [], ['b'], ['c']] : List (List Char)).getD 0 [] ≠ []) ∧
    ((∃ g ∈ exactGroups [['a'], ['b'], ['a'], [], [], ['b'], ['c']],
        0 ∈ g.2.2 ∧ 2 ∈ g.2.2) ∧
      (∀ g ∈ exactGroups [['a'], ['b'], ['a'], [], [], ['b'], ['c']],
        2 ≤ g.2.2.length) ∧
      (∀ g ∈ exactGroups [['a'], ['b'], ['a'], [], [], ['b'], ['c']],
        ∀ a ∈ g.2.2,
          ([['a'], ['b'], ['a'], [], [], ['b'], ['c']] : List (List Char)).getD a [] ≠ []) ∧
      ((exactGroups [['a'], ['b'], ['a'], [], [], ['b'], ['c']]).map Prod.fst
        = List.range' 1 (exactGroups [['a'], ['b'], ['a'], [], [], ['b'], ['c']]).length 1) ∧
      ((exactGroups [['a'], ['b'], ['a'], [], [], ['b'], ['c']]).Pairwise
        fun g1 g2 => g1.2.2.headD 0 < g2.2.2.headD 0) ∧
      (∀ g ∈ exactGroups [['a'], ['b'], ['a'], [], [], ['b'], ['c']],
        g.2.2.Pairwise (· < ·))) :=
  ⟨⟨by decide, by decide, by decide, by decide, by decide⟩,
    claim_C5 [['a'], ['b'], ['a'], [], [], ['b'], ['c']] 0 2
      (by decide) (by decide) (by decide) (by decide) (by decide)⟩

/-- Witness for claim C3 at `t = "ab"`, `n = 3`, `k = 4`. -/
theorem claim_C3_witness :
    1 ≤ 3 ∧ 1 ≤ 4 ∧
    ((minhash_signature "ab".toList 3 4).length = 4 ∧
      minhash_signature [] 3 4 = List.replicate 4 0 ∧
      ("ab".toList ≠ [] → "ab".toList.length < 3 →
        minhash_signature "ab".toList 3 4 = List.replicate 4 (adler32_hash "ab".toList))) :=
  ⟨by decide, by decide, claim_C3 "ab".toList 3 4 (by decide) (by decide)⟩

end TextSim
